import Mathlib

/-!
Shallow embedding of the Redis-backed job queue subsystem of the Cognify
repository (src/backend/queue/queue.ts, src/backend/queue/rate-limiter.ts,
src/backend/workers/processor.ts, src/backend/config/redis.ts).

The shared Redis store is modelled explicitly:
- string keys with JSON object values become association lists over a small
  JSON-value type (JVal);
- a Redis sorted set (ZSET) becomes an association list from member to score,
  with the usual well-formedness assumption that members are distinct;
- the Lua scripts of the source, which execute atomically, become pure Lean
  functions from state to state;
- the two failure modes of the source (Upstash not configured, store
  unreachable at call time) become two explicit boolean parameters, and the
  try/catch structure of each TypeScript function is reproduced in how those
  booleans are consumed (a catch block that returns null becomes an Ok result,
  an uncaught or re-thrown error becomes an Except.error).

Each queue index in the store is per job type; the QState below models the
slice of the store relevant to one job type (its priority ZSET and legacy
list) together with the global job-payload and status-record keyspaces.
-/

namespace Cognify

/-- Small JSON value type: the status records handled by the Lua merge script
only ever carry string and integer fields at the top level. -/
inductive JVal where
  | s (v : String)
  | n (v : Nat)
deriving DecidableEq, Repr

/-- A JSON object, as decoded by cjson in the Lua scripts: finitely many
string-keyed fields. -/
abbrev Obj := List (String × JVal)

/-- Lookup of a key in an association list (the first binding wins). -/
def aget {β : Type} : List (String × β) → String → Option β
  | [], _ => none
  | (k, v) :: t, key => if k = key then some v else aget t key

/-- Redis SET / Lua table assignment on an association list: replace the first
binding of the key, or append a fresh binding. -/
def aset {β : Type} : List (String × β) → String → β → List (String × β)
  | [], key, val => [(key, val)]
  | (k, v) :: t, key, val =>
    if k = key then (key, val) :: t else (k, v) :: aset t key val

/-- The keys of an association list. -/
def keys {β : Type} (l : List (String × β)) : List String := l.map Prod.fst

/-- First-of-two options, the shape of a field after a Lua merge. -/
def ofirst {β : Type} : Option β → Option β → Option β
  | some v, _ => some v
  | none, b => b

/-- The merge loop of the updateJobStatus Lua script:
for k,v in pairs(updates) do status[k] = v end. -/
def amerge {β : Type} (cur : List (String × β)) : List (String × β) → List (String × β)
  | [] => cur
  | (k, v) :: t => amerge (aset cur k v) t

/-- Lexicographic strict order on character lists, the order Redis uses on
members of a sorted set (byte-wise comparison). -/
def charListLt : List Char → List Char → Bool
  | [], [] => false
  | [], _ :: _ => true
  | _ :: _, [] => false
  | a :: as, b :: bs => if a < b then true else if b < a then false else charListLt as bs

/-- Lexicographic strict order on strings. -/
def strLt (a b : String) : Bool := charListLt a.data b.data

/-- The reflexive (score, member) order of a Redis sorted set, used to state
that ZPOPMAX pops a greatest entry. -/
def zle (e m : String × Nat) : Prop :=
  e.2 < m.2 ∨ (e.2 = m.2 ∧ (strLt e.1 m.1 = true ∨ e.1 = m.1))

/-- A Redis sorted set, member to score. -/
abbrev ZSet := List (String × Nat)

/-- The member-score pair with the greatest (score, member) in Redis order:
greatest score first, ties broken towards the lexicographically greatest
member, exactly as ZPOPMAX resolves them. -/
def zmax : ZSet → Option (String × Nat)
  | [] => none
  | e :: t =>
    match zmax t with
    | none => some e
    | some m =>
      if m.2 < e.2 ∨ (m.2 = e.2 ∧ strLt m.1 e.1 = true) then some e else some m

/-- Remove the binding of a member from the sorted set. -/
def zremoveKey (q : ZSet) (id : String) : ZSet :=
  q.filter (fun e => !(e.1 == id))

/-- Redis ZPOPMAX: pop the entry with the maximum (score, member). -/
def zpopmax (q : ZSet) : Option ((String × Nat) × ZSet) :=
  match zmax q with
  | none => none
  | some m => some (m, zremoveKey q m.1)

/-- Number of entries ranked strictly below the given (member, score) in the
ascending (score, member) order Redis uses for ZRANK. -/
def zcountBelow (q : ZSet) (id : String) (sc : Nat) : Nat :=
  (q.filter (fun e => decide (e.2 < sc ∨ (e.2 = sc ∧ strLt e.1 id = true)))).length

/-- Redis ZRANK: the 0-based ascending rank of a member, or none if absent. -/
def zrank (q : ZSet) (id : String) : Option Nat :=
  match aget q id with
  | none => none
  | some sc => some (zcountBelow q id sc)

/-- The job types of the queue (getAllQueueStats in queue.ts enumerates
"explain", "summarize", "summarize-batch"). -/
inductive JobType where
  | explain
  | summarize
  | summarizeBatch
deriving DecidableEq, Repr

/-- Modelled from the spec: the JOB_PRIORITIES table lives in
src/backend/queue/jobs.ts, which is not under src/; queue.ts reads
JOB_PRIORITIES jobType with default 1. Priority classes follow the spec and
the repository README: explain 10, summarize-batch 5, summarize 1. -/
def JOB_PRIORITIES : JobType → Nat
  | .explain => 10
  | .summarizeBatch => 5
  | .summarize => 1

/-- The enqueue score formula of queue.ts:
score = priority * 1000000000000 + Date.now(). -/
def jobScore (priority now : Nat) : Nat :=
  priority * 1000000000000 + now

/-- State of the store as seen by the queue module: job payload keys,
the priority ZSET and legacy list of one job type, and status-record keys.
Status entries and job payloads carry the TTL in seconds set at their last
write. -/
structure QState where
  jobs : List (String × String)
  queue : ZSet
  legacy : List String
  statuses : List (String × (Obj × Nat))
deriving DecidableEq, Repr

/-- Key of a job payload record. -/
def jobKey (jobId : String) : String := "job:" ++ jobId

/-- Key of a status record. -/
def statusKey (jobId : String) : String := "status:" ++ jobId

/-- The initial status record JSON written by enqueueJob. -/
def initialStatus (jobId : String) (now : Nat) : Obj :=
  [("jobId", .s jobId), ("status", .s "queued"), ("createdAt", .n now)]

/-- enqueueJob of queue.ts. Throws when Redis is not configured, re-throws
store errors (the catch block logs and re-throws); otherwise one atomic Lua
script stores the payload (24h TTL), ZADDs the index entry, LPUSHes the
legacy list and initializes the status record (24h TTL). -/
def enqueueJob (configured redisFails : Bool) (jobType : JobType)
    (jobId payload : String) (now : Nat) (s : QState) : Except String QState :=
  if !configured then
    .error "Redis not configured. Queue functionality requires Upstash Redis."
  else if redisFails then
    .error "store unreachable"
  else
    let priority := JOB_PRIORITIES jobType
    let score := jobScore priority now
    .ok { jobs := aset s.jobs (jobKey jobId) payload
        , queue := aset s.queue jobId score
        , legacy := jobId :: s.legacy
        , statuses := aset s.statuses (statusKey jobId) (initialStatus jobId now, 86400) }

/-- The guard dequeueJob applies to the popped member string. -/
def badId (id : String) : Bool :=
  id == "" || id == "undefined" || id == "null"

/-- dequeueJob of queue.ts. Returns null when Redis is not configured; the
surrounding try/catch returns null on any store error; otherwise ZPOPMAX
pops the maximum-score entry, the job payload is fetched by id, a missing
payload (orphan) yields null, and the legacy list entry is removed. -/
def dequeueJob (configured redisFails : Bool) (s : QState) :
    Except String (Option String × QState) :=
  if !configured then .ok (none, s)
  else if redisFails then .ok (none, s)
  else
    match zpopmax s.queue with
    | none => .ok (none, s)
    | some (m, rest) =>
      let s1 : QState := { s with queue := rest }
      if badId m.1 then .ok (none, s1)
      else
        match aget s.jobs (jobKey m.1) with
        | none => .ok (none, { s1 with legacy := s1.legacy.erase m.1 })
        | some payload => .ok (some payload, { s1 with legacy := s1.legacy.erase m.1 })

/-- updateJobStatus of queue.ts. No-op when Redis is not configured; the
catch block swallows store errors; otherwise one atomic Lua script reads the
current record (empty table if absent), merges the update fields over it and
writes the result back with a refreshed 24h TTL. -/
def updateJobStatus (configured redisFails : Bool) (jobId : String)
    (upd : Obj) (s : QState) : QState :=
  if !configured then s
  else if redisFails then s
  else
    let key := statusKey jobId
    let cur := match aget s.statuses key with
      | some (o, _) => o
      | none => []
    { s with statuses := aset s.statuses key (amerge cur upd, 86400) }

/-- getJobStatus of queue.ts. Returns null when Redis is not configured;
there is no try/catch, so a store error propagates to the caller. -/
def getJobStatus (configured redisFails : Bool) (jobId : String) (s : QState) :
    Except String (Option Obj) :=
  if !configured then .ok none
  else if redisFails then .error "store unreachable"
  else .ok ((aget s.statuses (statusKey jobId)).map Prod.fst)

/-- getQueuePosition of queue.ts: ZRANK of the job in the priority index,
plus one; null when absent or when Redis is not configured. -/
def getQueuePosition (configured : Bool) (s : QState) (jobId : String) :
    Option Nat :=
  if !configured then none
  else
    match zrank s.queue jobId with
    | none => none
    | some r => some (r + 1)

/-- The external providers of rate-limiter.ts. -/
inductive Provider where
  | groq
  | gemini
  | siliconflow
  | huggingface
  | openrouter
  | github
deriving DecidableEq, Repr

/-- Per-provider request-per-minute and token-per-minute limits. -/
structure ProviderLimits where
  rpm : Nat
  tpm : Nat
deriving DecidableEq, Repr

/-- The PROVIDER_LIMITS table of rate-limiter.ts. -/
def PROVIDER_LIMITS : Provider → ProviderLimits
  | .groq => ⟨30, 6000⟩
  | .gemini => ⟨15, 1000000⟩
  | .siliconflow => ⟨1000, 80000⟩
  | .huggingface => ⟨100, 100000⟩
  | .openrouter => ⟨20, 100000⟩
  | .github => ⟨1, 10000⟩

/-- Per-provider rate-limit state: the request-time sorted set (member,
timestamp score) and the token counter (0 when the key is absent). -/
structure RateState where
  reqs : List (String × Nat)
  tokens : Nat
deriving DecidableEq, Repr

/-- Result shape of canProcessRequest. -/
structure RateResult where
  allowed : Bool
  reason : Option String
deriving DecidableEq, Repr

/-- The rejection message built by the Lua script for the RPM limit. -/
def rpmMsg (rpm : Nat) : String :=
  "Rate limit exceeded: " ++ toString rpm ++ " RPM"

/-- The rejection message built by the Lua script for the TPM limit. -/
def tpmMsg (tpm : Nat) : String :=
  "Token limit exceeded: " ++ toString tpm ++ " TPM"

/-- The sliding-window prune of the Lua script:
ZREMRANGEBYSCORE rpmKey 0 (now - 60000) keeps exactly the entries whose
timestamp score satisfies score + 60000 > now. -/
def pruneWindow (now : Nat) (reqs : List (String × Nat)) : List (String × Nat) :=
  reqs.filter (fun e => decide (now < e.2 + 60000))

/-- canProcessRequest of rate-limiter.ts. Fails open (allowed, no reason)
when Redis is not configured or the store call errors; otherwise one atomic
Lua script prunes the window, rejects when the pruned set size reaches the
RPM limit, rejects when the token counter plus the estimate would pass the
TPM limit, and otherwise records the request and adds the tokens. -/
def canProcessRequest (configured redisFails : Bool) (provider : Provider)
    (now estimatedTokens : Nat) (uniqueId : String) (st : RateState) :
    RateResult × RateState :=
  if !configured then (⟨true, none⟩, st)
  else if redisFails then (⟨true, none⟩, st)
  else
    let limits := PROVIDER_LIMITS provider
    let pruned := pruneWindow now st.reqs
    if limits.rpm ≤ pruned.length then
      (⟨false, some (rpmMsg limits.rpm)⟩, { reqs := pruned, tokens := st.tokens })
    else if limits.tpm < st.tokens + estimatedTokens then
      (⟨false, some (tpmMsg limits.tpm)⟩, { reqs := pruned, tokens := st.tokens })
    else
      (⟨true, none⟩, { reqs := pruned ++ [(uniqueId, now)]
                     , tokens := st.tokens + estimatedTokens })

/-- The ordered fallback provider list of processExplainJob in processor.ts. -/
def fallbackProviders : List Provider :=
  [.siliconflow, .groq, .gemini, .huggingface, .openrouter, .github]

/-- The provider-selection control flow of processExplainJob: keep the
primary selection when its rate check passes; otherwise take the first
fallback provider that is distinct from the primary, has an API key and
passes its rate check; when none qualifies the selection is left unchanged
(the primary provider). The model-id and base-url strings attached to the
selection are not modelled; only the chosen provider is. -/
def selectExplainProvider (primary : Provider)
    (keyAvailable rateAllowed : Provider → Bool) : Provider :=
  if rateAllowed primary then primary
  else
    match fallbackProviders.find?
        (fun p => p != primary && keyAvailable p && rateAllowed p) with
    | some p => p
    | none => primary

/-- Observable outcome of one processJob call. -/
structure ProcessOutcome where
  executorInvoked : Bool
  providerUsed : Provider
  success : Bool
deriving DecidableEq, Repr

/-- processJob of processor.ts for an explain job, with the Job Executor
(streamFromProvider and stream parsing) abstracted into the executorOk flag
and the opaque result and error strings: mark the status processing, run the
provider selection of processExplainJob, invoke the Executor with the chosen
provider, then mark the status completed with the result, or failed with the
error message when the Executor throws. The queue is never touched. -/
def processJob (configured : Bool) (jobId : String) (primary : Provider)
    (keyAvailable rateAllowed : Provider → Bool) (executorOk : Bool)
    (resultJson errMsg : String) (now : Nat) (s : QState) :
    ProcessOutcome × QState :=
  let s1 := updateJobStatus configured false jobId
    [("status", .s "processing"), ("startedAt", .n now)] s
  let chosen := selectExplainProvider primary keyAvailable rateAllowed
  if executorOk then
    let s2 := updateJobStatus configured false jobId
      [("status", .s "completed"), ("completedAt", .n now), ("result", .s resultJson)] s1
    (⟨true, chosen, true⟩, s2)
  else
    let s2 := updateJobStatus configured false jobId
      [("status", .s "failed"), ("completedAt", .n now), ("error", .s errMsg)] s1
    (⟨true, chosen, false⟩, s2)

/-! Helper lemmas about the association-list and sorted-set primitives. -/

theorem aget_aset_self {β : Type} (l : List (String × β)) (k : String) (v : β) :
    aget (aset l k v) k = some v := by
  induction l with
  | nil => simp [aset, aget]
  | cons hd t ih =>
    obtain ⟨hk, hv⟩ := hd
    by_cases h : hk = k
    · simp [aset, h, aget]
    · simp [aset, h, aget, ih]

theorem aget_aset_ne {β : Type} (l : List (String × β)) (k k' : String) (v : β)
    (hne : k' ≠ k) : aget (aset l k v) k' = aget l k' := by
  have hne' : ¬(k = k') := fun h => hne h.symm
  induction l with
  | nil => simp [aset, aget, hne']
  | cons hd t ih =>
    obtain ⟨hk, hv⟩ := hd
    by_cases h : hk = k
    · subst h
      simp [aset, aget, hne']
    · simp [aset, h, aget, ih]

theorem aget_eq_none_of_not_mem {β : Type} (l : List (String × β)) (k : String)
    (h : k ∉ keys l) : aget l k = none := by
  induction l with
  | nil => rfl
  | cons hd t ih =>
    obtain ⟨hk, hv⟩ := hd
    have hcons : keys ((hk, hv) :: t) = hk :: keys t := rfl
    rw [hcons, List.mem_cons] at h
    push_neg at h
    simp only [aget]
    rw [if_neg (fun hh => h.1 hh.symm)]
    exact ih h.2

theorem aget_amerge {β : Type} (cur upd : List (String × β))
    (hnd : (keys upd).Nodup) (k : String) :
    aget (amerge cur upd) k = ofirst (aget upd k) (aget cur k) := by
  induction upd generalizing cur with
  | nil => simp [amerge, aget, ofirst]
  | cons hd t ih =>
    obtain ⟨k0, v0⟩ := hd
    have hcons : keys ((k0, v0) :: t) = k0 :: keys t := rfl
    rw [hcons] at hnd
    obtain ⟨hk0, hnd'⟩ := List.nodup_cons.mp hnd
    by_cases hk : k0 = k
    · subst hk
      rw [amerge, ih (aset cur k0 v0) hnd']
      rw [aget_eq_none_of_not_mem t k0 hk0]
      simp [aget, ofirst, aget_aset_self]
    · rw [amerge, ih (aset cur k0 v0) hnd']
      rw [aget_aset_ne cur k0 k v0 (fun h => hk h.symm)]
      simp [aget, hk]

theorem aget_zremoveKey (q : ZSet) (id : String) :
    aget (zremoveKey q id) id = none := by
  induction q with
  | nil => rfl
  | cons e t ih =>
    by_cases h : e.1 = id
    · simp [zremoveKey, List.filter_cons, h] at ih ⊢
      exact ih
    · simp [zremoveKey, List.filter_cons, h] at ih ⊢
      simp [aget, h, ih]

theorem length_filter_split {α : Type} (p : α → Bool) (l : List α) :
    (l.filter p).length + (l.filter (fun a => !(p a))).length = l.length := by
  induction l with
  | nil => rfl
  | cons a t ih =>
    by_cases h : p a = true
    · simp [List.filter_cons, h]
      omega
    · simp only [Bool.not_eq_true] at h
      simp [List.filter_cons, h]
      omega

theorem eq_of_mem_of_keys_nodup {β : Type} {l : List (String × β)}
    (hnd : (keys l).Nodup) {e f : String × β} (he : e ∈ l) (hf : f ∈ l)
    (hk : e.1 = f.1) : e = f := by
  induction l with
  | nil => cases he
  | cons a t ih =>
    have hcons : keys (a :: t) = a.1 :: keys t := rfl
    rw [hcons] at hnd
    obtain ⟨hna, hnd'⟩ := List.nodup_cons.mp hnd
    rcases List.mem_cons.mp he with he1 | he2 <;>
      rcases List.mem_cons.mp hf with hf1 | hf2
    · rw [he1, hf1]
    · exfalso
      apply hna
      rw [← he1, hk]
      exact List.mem_map_of_mem Prod.fst hf2
    · exfalso
      apply hna
      rw [← hf1, ← hk]
      exact List.mem_map_of_mem Prod.fst he2
    · exact ih hnd' he2 hf2

theorem aget_of_mem_nodup {β : Type} {l : List (String × β)}
    (hnd : (keys l).Nodup) {e : String × β} (he : e ∈ l) :
    aget l e.1 = some e.2 := by
  induction l with
  | nil => cases he
  | cons a t ih =>
    have hcons : keys (a :: t) = a.1 :: keys t := rfl
    rw [hcons] at hnd
    obtain ⟨hna, hnd'⟩ := List.nodup_cons.mp hnd
    rcases List.mem_cons.mp he with he1 | he2
    · subst he1
      simp [aget]
    · have hne : a.1 ≠ e.1 := by
        intro hcontra
        exact hna (hcontra ▸ List.mem_map_of_mem Prod.fst he2)
      simp [aget, hne, ih hnd' he2]

theorem charListLt_irrefl (l : List Char) : charListLt l l = false := by
  induction l with
  | nil => rfl
  | cons a t ih => simp [charListLt, lt_irrefl, ih]

theorem strLt_irrefl (s : String) : strLt s s = false :=
  charListLt_irrefl s.data

theorem charListLt_trans {a b c : List Char} (hab : charListLt a b = true)
    (hbc : charListLt b c = true) : charListLt a c = true := by
  induction a generalizing b c with
  | nil =>
    cases b with
    | nil => simp [charListLt] at hab
    | cons bh bt =>
      cases c with
      | nil => simp [charListLt] at hbc
      | cons ch ct => simp [charListLt]
  | cons ah t ih =>
    cases b with
    | nil => simp [charListLt] at hab
    | cons bh bt =>
      cases c with
      | nil => simp [charListLt] at hbc
      | cons ch ct =>
        by_cases h2 : bh < ch
        · by_cases h1 : ah < bh
          · simp [charListLt, lt_trans h1 h2]
          · by_cases h1' : bh < ah
            · simp [charListLt, h1, h1'] at hab
            · have : ah = bh := le_antisymm (le_of_not_lt h1') (le_of_not_lt h1)
              subst this
              simp [charListLt, h2]
        · by_cases h2' : ch < bh
          · simp [charListLt, h2, h2'] at hbc
          · have : bh = ch := le_antisymm (le_of_not_lt h2') (le_of_not_lt h2)
            subst this
            by_cases h1 : ah < bh
            · simp [charListLt, h1]
            · by_cases h1' : bh < ah
              · simp [charListLt, h1, h1'] at hab
              · have : ah = bh := le_antisymm (le_of_not_lt h1') (le_of_not_lt h1)
                subst this
                simp [charListLt, lt_irrefl] at hab hbc ⊢
                exact ih hab hbc

theorem charListLt_eq_of_not {a b : List Char} (h1 : charListLt a b = false)
    (h2 : charListLt b a = false) : a = b := by
  induction a generalizing b with
  | nil =>
    cases b with
    | nil => rfl
    | cons bh bt => simp [charListLt] at h1
  | cons ah t ih =>
    cases b with
    | nil => simp [charListLt] at h2
    | cons bh bt =>
      by_cases hc : ah < bh
      · simp [charListLt, hc] at h1
      · by_cases hc2 : bh < ah
        · simp [charListLt, hc2] at h2
        · have he : ah = bh := le_antisymm (le_of_not_lt hc2) (le_of_not_lt hc)
          subst he
          simp [charListLt, lt_irrefl] at h1 h2
          rw [ih h1 h2]

theorem strLt_trans {a b c : String} (hab : strLt a b = true)
    (hbc : strLt b c = true) : strLt a c = true :=
  charListLt_trans hab hbc

theorem strLt_eq_of_not {a b : String} (h1 : strLt a b = false)
    (h2 : strLt b a = false) : a = b := by
  cases a; cases b
  have := charListLt_eq_of_not h1 h2
  simp at this
  subst this
  rfl

theorem zle_refl (e : String × Nat) : zle e e := Or.inr ⟨rfl, Or.inr rfl⟩

theorem zle_trans {x y z : String × Nat} (hxy : zle x y) (hyz : zle y z) :
    zle x z := by
  rcases hxy with h1 | ⟨h1, m1⟩ <;> rcases hyz with h2 | ⟨h2, m2⟩
  · exact Or.inl (lt_trans h1 h2)
  · exact Or.inl (h2 ▸ h1)
  · exact Or.inl (h1 ▸ h2)
  · refine Or.inr ⟨h1.trans h2, ?_⟩
    rcases m1 with m1 | m1 <;> rcases m2 with m2 | m2
    · exact Or.inl (strLt_trans m1 m2)
    · exact Or.inl (m2 ▸ m1)
    · exact Or.inl (m1 ▸ m2)
    · exact Or.inr (m1.trans m2)

theorem zmax_eq_none {q : ZSet} (h : zmax q = none) : q = [] := by
  cases q with
  | nil => rfl
  | cons e t =>
    exfalso
    simp only [zmax] at h
    cases hz : zmax t with
    | none =>
      simp only [hz] at h
      exact Option.noConfusion h
    | some m =>
      simp only [hz] at h
      by_cases hc : m.2 < e.2 ∨ (m.2 = e.2 ∧ strLt m.1 e.1 = true)
      · rw [if_pos hc] at h
        exact Option.noConfusion h
      · rw [if_neg hc] at h
        exact Option.noConfusion h

theorem zmax_mem {q : ZSet} {m : String × Nat} (h : zmax q = some m) :
    m ∈ q := by
  induction q generalizing m with
  | nil => simp [zmax] at h
  | cons e t ih =>
    simp only [zmax] at h
    cases hz : zmax t with
    | none =>
      simp only [hz] at h
      simp at h
      simp [h]
    | some m' =>
      simp only [hz] at h
      by_cases hc : m'.2 < e.2 ∨ (m'.2 = e.2 ∧ strLt m'.1 e.1 = true)
      · rw [if_pos hc] at h
        simp at h
        simp [h]
      · rw [if_neg hc] at h
        simp at h
        exact List.mem_cons_of_mem e (ih (by rw [hz, h]))

theorem zmax_le {q : ZSet} {m : String × Nat} (h : zmax q = some m) :
    ∀ e ∈ q, zle e m := by
  induction q generalizing m with
  | nil => simp
  | cons e t ih =>
    intro x hx
    simp only [zmax] at h
    cases hz : zmax t with
    | none =>
      simp only [hz] at h
      simp at h
      have ht : t = [] := zmax_eq_none hz
      subst ht
      rcases List.mem_cons.mp hx with h1 | h1
      · subst h1; rw [← h]; exact zle_refl x
      · cases h1
    | some m' =>
      simp only [hz] at h
      by_cases hc : m'.2 < e.2 ∨ (m'.2 = e.2 ∧ strLt m'.1 e.1 = true)
      · rw [if_pos hc] at h
        simp at h
        subst h
        rcases List.mem_cons.mp hx with h1 | h1
        · subst h1; exact zle_refl x
        · have hxm' : zle x m' := ih hz x h1
          have hm'e : zle m' e := by
            rcases hc with hc | ⟨hc1, hc2⟩
            · exact Or.inl hc
            · exact Or.inr ⟨hc1, Or.inl hc2⟩
          exact zle_trans hxm' hm'e
      · rw [if_neg hc] at h
        simp at h
        subst h
        rcases List.mem_cons.mp hx with h1 | h1
        · subst h1
          push_neg at hc
          have hle : x.2 ≤ m'.2 := hc.1
          rcases lt_or_eq_of_le hle with hlt | heq
          · exact Or.inl hlt
          · refine Or.inr ⟨heq, ?_⟩
            cases hs : strLt x.1 m'.1 with
            | true => exact Or.inl rfl
            | false =>
              cases hb : strLt m'.1 x.1 with
              | true => exact absurd hb (hc.2 heq.symm)
              | false => exact Or.inr (strLt_eq_of_not hs hb)
        · exact ih hz x h1

theorem updateJobStatus_queue (c f : Bool) (j : String) (u : Obj) (s : QState) :
    (updateJobStatus c f j u s).queue = s.queue := by
  unfold updateJobStatus
  split_ifs <;> rfl

theorem updateJobStatus_jobs (c f : Bool) (j : String) (u : Obj) (s : QState) :
    (updateJobStatus c f j u s).jobs = s.jobs := by
  unfold updateJobStatus
  split_ifs <;> rfl

theorem updateJobStatus_legacy (c f : Bool) (j : String) (u : Obj) (s : QState) :
    (updateJobStatus c f j u s).legacy = s.legacy := by
  unfold updateJobStatus
  split_ifs <;> rfl

theorem aget_updateJobStatus_named (jobId : String) (upd : Obj) (s : QState)
    (hnd : (keys upd).Nodup) :
    ∃ m, aget (updateJobStatus true false jobId upd s).statuses (statusKey jobId)
        = some (m, 86400)
      ∧ ∀ k v, aget upd k = some v → aget m k = some v := by
  rcases hcur : aget s.statuses (statusKey jobId) with _ | ⟨o, ttl⟩
  · refine ⟨amerge [] upd, ?_, ?_⟩
    · simp [updateJobStatus, hcur, aget_aset_self]
    · intro k v hv
      rw [aget_amerge _ _ hnd, hv]
      rfl
  · refine ⟨amerge o upd, ?_, ?_⟩
    · simp [updateJobStatus, hcur, aget_aset_self]
    · intro k v hv
      rw [aget_amerge _ _ hnd, hv]
      rfl

/-! Claim theorems. -/

/-- C1 (counterexample): the dominance of the priority term fails for
arbitrary timestamp pairs. With priority classes 10 > 5 and timestamps 0 and
6×10^12 (a gap larger than the 10^12 multiplier times the class gap), the
priority-5 job scores above the priority-10 job and is popped first. -/
theorem priority_dominance_cex :
    jobScore 10 0 < jobScore 5 6000000000000
    ∧ (zpopmax [("hi", jobScore 10 0), ("lo", jobScore 5 6000000000000)]).map
        (fun r => r.1.1) = some "lo" := by
  constructor
  · decide
  · decide

/-- C1 (amended): for priority classes p2 < p1 and enqueue timestamps whose
gap is below (p1 - p2)×10^12 milliseconds — which holds for every pair of
Date.now values within the queue's lifetime, the multiplier exceeding any
realistic timestamp span — the p1 job's score strictly exceeds the p2 job's
score, and ZPOPMAX on a queue holding both index entries pops the p1 job
first. -/
theorem priority_dominance (p1 p2 t1 t2 : Nat) (a b : String)
    (hp : p2 < p1) (hspan : t2 < t1 + (p1 - p2) * 1000000000000) :
    jobScore p2 t2 < jobScore p1 t1
    ∧ (zpopmax [(a, jobScore p1 t1), (b, jobScore p2 t2)]).map
        (fun r => r.1.1) = some a := by
  have hlt : jobScore p2 t2 < jobScore p1 t1 := by
    unfold jobScore
    omega
  refine ⟨hlt, ?_⟩
  have hzm : zmax [(a, jobScore p1 t1), (b, jobScore p2 t2)]
      = some (a, jobScore p1 t1) := by
    simp only [zmax]
    rw [if_pos]
    exact Or.inl hlt
  simp [zpopmax, hzm]

/-- C1 (witness): the amended dominance at priorities 10 and 5 with
timestamps 1000 and 2000. -/
theorem priority_dominance_witness :
    jobScore 5 2000 < jobScore 10 1000
    ∧ (zpopmax [("A", jobScore 10 1000), ("B", jobScore 5 2000)]).map
        (fun r => r.1.1) = some "A" :=
  priority_dominance 10 5 1000 2000 "A" "B" (by decide) (by decide)

/-- C2 (code bug): two jobs of the same priority class 5 enqueued at
timestamps 100 and 200; dequeue returns the job enqueued at the LATER
timestamp 200 first, because ZPOPMAX pops the maximum score and the score
grows with the timestamp — the repository README documents FIFO within a
priority class, so the claim matches the intent and the code is LIFO. -/
theorem fifo_tiebreak_violation :
    dequeueJob true false
      ⟨[("job:A", "payloadA"), ("job:B", "payloadB")],
       [("A", jobScore 5 100), ("B", jobScore 5 200)], [], []⟩
      = .ok (some "payloadB",
        ⟨[("job:A", "payloadA"), ("job:B", "payloadB")],
         [("A", jobScore 5 100)], [], []⟩) := by rfl

/-- C5 (counterexample): with every provider's rate check rejecting
(rateAllowed constantly false) and every API key available, processJob for an
explain job still invokes the Job Executor with the primary provider and, the
Executor succeeding, marks the job completed — it does not mark the job
failed and does not skip the Executor. -/
theorem saturation_cex :
    (processJob true "j" Provider.groq (fun _ => true) (fun _ => false) true
      "res" "err" 1000 ⟨[], [], [], []⟩).1
      = ⟨true, Provider.groq, true⟩ := by rfl

/-- C5 (amended): when every candidate provider is rejected by the rate
limiter, the worker keeps the originally selected provider, still invokes the
Job Executor with it, and the job is marked failed only when the Executor
itself throws (with the error message recorded); in every case the queue,
job payloads and legacy list are untouched — the job is never returned to
the queue. -/
theorem saturation_spec (jobId : String) (primary : Provider)
    (keyAvailable rateAllowed : Provider → Bool) (executorOk : Bool)
    (resultJson errMsg : String) (now : Nat) (s : QState)
    (hsat : ∀ p, rateAllowed p = false) :
    (processJob true jobId primary keyAvailable rateAllowed executorOk
        resultJson errMsg now s).1 = ⟨true, primary, executorOk⟩
    ∧ (processJob true jobId primary keyAvailable rateAllowed executorOk
        resultJson errMsg now s).2.queue = s.queue
    ∧ (processJob true jobId primary keyAvailable rateAllowed executorOk
        resultJson errMsg now s).2.jobs = s.jobs
    ∧ (processJob true jobId primary keyAvailable rateAllowed executorOk
        resultJson errMsg now s).2.legacy = s.legacy
    ∧ (executorOk = false →
        ∃ m, aget (processJob true jobId primary keyAvailable rateAllowed executorOk
            resultJson errMsg now s).2.statuses (statusKey jobId) = some (m, 86400)
          ∧ aget m "status" = some (JVal.s "failed")
          ∧ aget m "error" = some (JVal.s errMsg)) := by
  have hnone : fallbackProviders.find?
      (fun p => p != primary && keyAvailable p && rateAllowed p) = none :=
    List.find?_eq_none.mpr (by intro x hx; simp [hsat x])
  have hsel : selectExplainProvider primary keyAvailable rateAllowed = primary := by
    unfold selectExplainProvider
    rw [hsat primary]
    simp [hnone]
  cases executorOk with
  | true =>
    refine ⟨?_, ?_, ?_, ?_, ?_⟩
    · simp [processJob, hsel]
    · simp [processJob, updateJobStatus_queue]
    · simp [processJob, updateJobStatus_jobs]
    · simp [processJob, updateJobStatus_legacy]
    · intro hx
      exact Bool.noConfusion hx
  | false =>
    refine ⟨?_, ?_, ?_, ?_, ?_⟩
    · simp [processJob, hsel]
    · simp [processJob, updateJobStatus_queue]
    · simp [processJob, updateJobStatus_jobs]
    · simp [processJob, updateJobStatus_legacy]
    · intro _
      have hstep : (processJob true jobId primary keyAvailable rateAllowed false
          resultJson errMsg now s).2
          = updateJobStatus true false jobId
              [("status", JVal.s "failed"), ("completedAt", JVal.n now),
               ("error", JVal.s errMsg)]
              (updateJobStatus true false jobId
                [("status", JVal.s "processing"), ("startedAt", JVal.n now)] s) := by
        simp [processJob]
      rw [hstep]
      obtain ⟨m, hm, hf⟩ := aget_updateJobStatus_named jobId
        [("status", JVal.s "failed"), ("completedAt", JVal.n now),
         ("error", JVal.s errMsg)]
        (updateJobStatus true false jobId
          [("status", JVal.s "processing"), ("startedAt", JVal.n now)] s)
        (by
          have hkeys : keys [("status", JVal.s "failed"), ("completedAt", JVal.n now),
              ("error", JVal.s errMsg)] = ["status", "completedAt", "error"] := rfl
          rw [hkeys]
          decide)
      exact ⟨m, hm, hf "status" _ rfl, hf "error" _ rfl⟩

/-- C5 (witness): the amended statement at a concrete saturated state with a
throwing Executor. -/
theorem saturation_spec_witness :
    (processJob true "j" Provider.groq (fun _ => true) (fun _ => false) false
      "res" "err" 7 ⟨[], [], [], []⟩).1 = ⟨true, Provider.groq, false⟩ :=
  (saturation_spec "j" Provider.groq (fun _ => true) (fun _ => false) false
    "res" "err" 7 ⟨[], [], [], []⟩ (fun _ => rfl)).1

/-- C6 (counterexample): a status record in the terminal state completed is
overwritten to queued by a subsequent updateJobStatus naming the status
field — the merge script has no terminal-state guard, so a further
transition does occur. -/
theorem terminal_overwrite_cex :
    (aget ((updateJobStatus true false "j" [("status", JVal.s "queued")]
        ⟨[], [], [], [("status:j", ([("status", JVal.s "completed")], 86400))]⟩).statuses)
        "status:j").map (fun e => aget e.1 "status")
      = some (some (JVal.s "queued"))
    ∧ some (some (JVal.s "queued")) ≠ some (some (JVal.s "completed")) := by
  constructor
  · decide
  · decide

/-- C6 (amended): updateJobStatus applies an unconditional shallow merge with
no terminal-state check: a terminal status survives a subsequent update
exactly when that update does not name the status field; an update that
names it overwrites the terminal value. -/
theorem updateJobStatus_no_terminal_guard (s : QState) (jobId : String)
    (cur : Obj) (ttl : Nat) (upd : Obj)
    (hcur : aget s.statuses (statusKey jobId) = some (cur, ttl))
    (hnd : (keys upd).Nodup)
    (hno : aget upd "status" = none) :
    ∃ m, aget (updateJobStatus true false jobId upd s).statuses (statusKey jobId)
        = some (m, 86400)
      ∧ aget m "status" = aget cur "status" := by
  refine ⟨amerge cur upd, ?_, ?_⟩
  · simp [updateJobStatus, hcur, aget_aset_self]
  · rw [aget_amerge _ _ hnd, hno]
    rfl

/-- C6 (witness): a completed record updated only in its completedAt field
keeps status completed. -/
theorem updateJobStatus_no_terminal_guard_witness :
    ∃ m, aget (updateJobStatus true false "j" [("completedAt", JVal.n 5)]
        ⟨[], [], [], [("status:j", ([("status", JVal.s "completed")], 86400))]⟩).statuses
        (statusKey "j") = some (m, 86400)
      ∧ aget m "status" = aget [("status", JVal.s "completed")] "status" :=
  updateJobStatus_no_terminal_guard _ "j" _ 86400 _ (by rfl) (by decide) (by rfl)

/-- C7: updateJobStatus shallow-merges the update over the existing record
and writes it back with a refreshed 24h TTL: every field named in the update
carries the update's value and every other field of the prior record is
unchanged. -/
theorem updateJobStatus_shallow_merge (s : QState) (jobId : String)
    (cur : Obj) (ttl : Nat) (upd : Obj)
    (hcur : aget s.statuses (statusKey jobId) = some (cur, ttl))
    (hnd : (keys upd).Nodup) :
    ∃ m, aget (updateJobStatus true false jobId upd s).statuses (statusKey jobId)
        = some (m, 86400)
      ∧ (∀ k v, aget upd k = some v → aget m k = some v)
      ∧ (∀ k, aget upd k = none → aget m k = aget cur k) := by
  refine ⟨amerge cur upd, ?_, ?_, ?_⟩
  · simp [updateJobStatus, hcur, aget_aset_self]
  · intro k v hv
    rw [aget_amerge _ _ hnd, hv]
    rfl
  · intro k hk
    rw [aget_amerge _ _ hnd, hk]
    rfl

/-- C7 (witness): the merge test of the spec — a queued record with
createdAt 111, updated to processing with startedAt 222, keeps createdAt and
gains startedAt. -/
theorem updateJobStatus_shallow_merge_witness :
    ∃ m, aget (updateJobStatus true false "j"
          [("status", JVal.s "processing"), ("startedAt", JVal.n 222)]
          ⟨[], [], [], [("status:j",
            ([("status", JVal.s "queued"), ("createdAt", JVal.n 111)], 86400))]⟩).statuses
        (statusKey "j") = some (m, 86400)
      ∧ (∀ k v, aget [("status", JVal.s "processing"), ("startedAt", JVal.n 222)] k
          = some v → aget m k = some v)
      ∧ (∀ k, aget [("status", JVal.s "processing"), ("startedAt", JVal.n 222)] k
          = none
          → aget m k = aget [("status", JVal.s "queued"), ("createdAt", JVal.n 111)] k) :=
  updateJobStatus_shallow_merge _ "j" _ 86400 _ (by rfl) (by decide)

/-- C10: when no status record exists under the key, updateJobStatus merges
into the empty table and writes a fresh record holding exactly the update's
fields with a fresh 24h TTL — a late status write recreates the record of an
expired or unknown job. -/
theorem updateJobStatus_creates_fresh (s : QState) (jobId : String) (upd : Obj)
    (habs : aget s.statuses (statusKey jobId) = none)
    (hnd : (keys upd).Nodup) :
    ∃ m, aget (updateJobStatus true false jobId upd s).statuses (statusKey jobId)
        = some (m, 86400)
      ∧ ∀ k, aget m k = aget upd k := by
  refine ⟨amerge [] upd, ?_, ?_⟩
  · simp [updateJobStatus, habs, aget_aset_self]
  · intro k
    rw [aget_amerge _ _ hnd]
    cases h : aget upd k
    · rfl
    · rfl

/-- C10 (witness): a status write on an empty store creates the record with
exactly the written fields and TTL 86400. -/
theorem updateJobStatus_creates_fresh_witness :
    ∃ m, aget (updateJobStatus true false "j"
          [("status", JVal.s "completed"), ("completedAt", JVal.n 999)]
          ⟨[], [], [], []⟩).statuses (statusKey "j") = some (m, 86400)
      ∧ ∀ k, aget m k
          = aget [("status", JVal.s "completed"), ("completedAt", JVal.n 999)] k :=
  updateJobStatus_creates_fresh _ "j" _ (by rfl) (by decide)

/-- C9 (counterexample): with the backend not configured, dequeueJob returns
Ok none with the state unchanged and getJobStatus returns Ok none — neither
surfaces an error to the caller, contradicting the claim that all of
enqueue, dequeue and status fail with a BackendUnavailable error. -/
theorem backend_unavailable_cex :
    dequeueJob false false ⟨[], [], [], []⟩ = .ok (none, ⟨[], [], [], []⟩)
    ∧ getJobStatus false false "j" ⟨[], [], [], []⟩ = .ok none :=
  ⟨rfl, rfl⟩

/-- C9 (amended): when the store is not configured, only enqueueJob surfaces
an error; dequeueJob silently returns none with the state unchanged,
getJobStatus silently returns none, and updateJobStatus is a silent no-op. -/
theorem backend_unconfigured_spec (s : QState) (jt : JobType)
    (jobId payload : String) (now : Nat) (upd : Obj) :
    enqueueJob false false jt jobId payload now s
        = .error "Redis not configured. Queue functionality requires Upstash Redis."
    ∧ dequeueJob false false s = .ok (none, s)
    ∧ getJobStatus false false jobId s = .ok none
    ∧ updateJobStatus false false jobId upd s = s :=
  ⟨rfl, rfl, rfl, rfl⟩

/-- C3: with the store reachable, canProcessRequest allows the request
exactly when, after the sliding-window prune, the pruned request-set size is
strictly below the provider's RPM limit and the token counter plus the
estimate stays within the TPM limit; exactly when allowed, the new request
entry is appended and the token counter incremented; when rejected the state
keeps only the prune and the reason names the exceeded limit. -/
theorem canProcessRequest_spec (p : Provider) (now cost : Nat) (uid : String)
    (st : RateState) :
    ((canProcessRequest true false p now cost uid st).1.allowed = true
      ↔ ((pruneWindow now st.reqs).length < (PROVIDER_LIMITS p).rpm
          ∧ st.tokens + cost ≤ (PROVIDER_LIMITS p).tpm))
    ∧ ((canProcessRequest true false p now cost uid st).1.allowed = true →
        (canProcessRequest true false p now cost uid st).2
          = ⟨pruneWindow now st.reqs ++ [(uid, now)], st.tokens + cost⟩)
    ∧ ((canProcessRequest true false p now cost uid st).1.allowed = false →
        (canProcessRequest true false p now cost uid st).2
          = ⟨pruneWindow now st.reqs, st.tokens⟩)
    ∧ ((PROVIDER_LIMITS p).rpm ≤ (pruneWindow now st.reqs).length →
        (canProcessRequest true false p now cost uid st).1.reason
          = some (rpmMsg (PROVIDER_LIMITS p).rpm))
    ∧ (((pruneWindow now st.reqs).length < (PROVIDER_LIMITS p).rpm
          ∧ (PROVIDER_LIMITS p).tpm < st.tokens + cost) →
        (canProcessRequest true false p now cost uid st).1.reason
          = some (tpmMsg (PROVIDER_LIMITS p).tpm)) := by
  by_cases h1 : (PROVIDER_LIMITS p).rpm ≤ (pruneWindow now st.reqs).length
  · have hr : canProcessRequest true false p now cost uid st
        = (⟨false, some (rpmMsg (PROVIDER_LIMITS p).rpm)⟩,
           ⟨pruneWindow now st.reqs, st.tokens⟩) := by
      simp [canProcessRequest, h1]
    rw [hr]
    refine ⟨?_, ?_, ?_, ?_, ?_⟩
    · constructor
      · intro hx
        exact absurd hx (by simp)
      · intro hx
        omega
    · intro hx
      exact absurd hx (by simp)
    · intro _
      rfl
    · intro _
      rfl
    · intro hx
      omega
  · by_cases h2 : (PROVIDER_LIMITS p).tpm < st.tokens + cost
    · have hr : canProcessRequest true false p now cost uid st
          = (⟨false, some (tpmMsg (PROVIDER_LIMITS p).tpm)⟩,
             ⟨pruneWindow now st.reqs, st.tokens⟩) := by
        simp [canProcessRequest, h1, h2]
      rw [hr]
      refine ⟨?_, ?_, ?_, ?_, ?_⟩
      · constructor
        · intro hx
          exact absurd hx (by simp)
        · intro hx
          omega
      · intro hx
        exact absurd hx (by simp)
      · intro _
        rfl
      · intro hx
        exact absurd hx h1
      · intro _
        rfl
    · have hr : canProcessRequest true false p now cost uid st
          = (⟨true, none⟩,
             ⟨pruneWindow now st.reqs ++ [(uid, now)], st.tokens + cost⟩) := by
        simp [canProcessRequest, h1, h2]
      rw [hr]
      refine ⟨?_, ?_, ?_, ?_, ?_⟩
      · constructor
        · intro _
          omega
        · intro _
          rfl
      · intro _
        rfl
      · intro hx
        exact absurd hx (by simp)
      · intro hx
        exact absurd hx h1
      · intro hx
        exact absurd hx.2 h2

/-- C3 (witness): provider github has RPM limit 1; with one request already
in the window, a second request is rejected with the RPM reason. -/
theorem canProcessRequest_spec_witness :
    (canProcessRequest true false Provider.github 100000 50 "r2"
        ⟨[("r1", 99990)], 0⟩).1.reason
      = some (rpmMsg (PROVIDER_LIMITS Provider.github).rpm) := by
  have h := canProcessRequest_spec Provider.github 100000 50 "r2"
    ⟨[("r1", 99990)], 0⟩
  have hx : (PROVIDER_LIMITS Provider.github).rpm
      ≤ (pruneWindow 100000 [("r1", 99990)]).length := by decide
  exact h.2.2.2.1 hx

/-- C4 (counterexample): a queue holding a priority-10 job A and a
priority-5 job B: ZPOPMAX pops A next, yet getQueuePosition reports A at
position 2 (the ascending ZRANK plus one), not 1 — so the next-dequeued job
does not get position 1. -/
theorem position_inversion_cex :
    (zpopmax [("A", jobScore 10 100), ("B", jobScore 5 200)]).map
        (fun r => r.1.1) = some "A"
    ∧ getQueuePosition true
        ⟨[], [("A", jobScore 10 100), ("B", jobScore 5 200)], [], []⟩ "A"
      = some 2
    ∧ (2 : Nat) ≠ 1 := by
  refine ⟨by decide, by decide, by decide⟩

/-- C4 (amended): getQueuePosition returns one plus the ascending (score,
member) rank of the job — position 1 is the LOWEST-score entry; the job that
dequeue pops next (the ZPOPMAX maximum) has position equal to the queue
size, and a job absent from the index gets none. -/
theorem getQueuePosition_spec (s : QState) (m : String × Nat) (rest : ZSet)
    (absent : String)
    (hnd : (keys s.queue).Nodup)
    (hz : zpopmax s.queue = some (m, rest))
    (hab : aget s.queue absent = none) :
    getQueuePosition true s m.1 = some s.queue.length
    ∧ getQueuePosition true s absent = none := by
  have hzm : zmax s.queue = some m := by
    unfold zpopmax at hz
    cases h : zmax s.queue with
    | none =>
      rw [h] at hz
      exact Option.noConfusion hz
    | some m' =>
      rw [h] at hz
      simp at hz
      rw [hz.1]
  constructor
  · have hmem : m ∈ s.queue := zmax_mem hzm
    have hget : aget s.queue m.1 = some m.2 := aget_of_mem_nodup hnd hmem
    have hle := zmax_le hzm
    have hqnd : s.queue.Nodup := List.Nodup.of_map Prod.fst hnd
    have hfilt : s.queue.filter
        (fun e => !(decide (e.2 < m.2 ∨ (e.2 = m.2 ∧ strLt e.1 m.1 = true)))) = [m] := by
      have hmemf : m ∈ s.queue.filter
          (fun e => !(decide (e.2 < m.2 ∨ (e.2 = m.2 ∧ strLt e.1 m.1 = true)))) := by
        refine List.mem_filter.mpr ⟨hmem, ?_⟩
        simp [strLt_irrefl]
      have hallf : ∀ x ∈ s.queue.filter
          (fun e => !(decide (e.2 < m.2 ∨ (e.2 = m.2 ∧ strLt e.1 m.1 = true)))), x = m := by
        intro x hx
        obtain ⟨hxq, hxb⟩ := List.mem_filter.mp hx
        have hzle : zle x m := hle x hxq
        have hnot : ¬(x.2 < m.2 ∨ (x.2 = m.2 ∧ strLt x.1 m.1 = true)) := by
          intro hcontra
          have hdec : decide (x.2 < m.2 ∨ (x.2 = m.2 ∧ strLt x.1 m.1 = true)) = true :=
            decide_eq_true hcontra
          rw [hdec] at hxb
          exact Bool.noConfusion hxb
        have h1 : ¬(x.2 < m.2) := fun hh => hnot (Or.inl hh)
        have h2 : ¬(x.2 = m.2 ∧ strLt x.1 m.1 = true) := fun hh => hnot (Or.inr hh)
        rcases hzle with hlt | ⟨heq, hmem1⟩
        · exact absurd hlt h1
        · rcases hmem1 with hm1 | hm1
          · exact absurd ⟨heq, hm1⟩ h2
          · exact eq_of_mem_of_keys_nodup hnd hxq hmem hm1
      have hfnd : (s.queue.filter
          (fun e => !(decide (e.2 < m.2 ∨ (e.2 = m.2 ∧ strLt e.1 m.1 = true))))).Nodup :=
        List.Sublist.nodup (List.filter_sublist _) hqnd
      cases hcase : s.queue.filter
          (fun e => !(decide (e.2 < m.2 ∨ (e.2 = m.2 ∧ strLt e.1 m.1 = true)))) with
      | nil =>
        rw [hcase] at hmemf
        cases hmemf
      | cons y ys =>
        cases ys with
        | nil =>
          rw [hcase] at hallf
          rw [hallf y (List.mem_cons_self y [])]
        | cons z zs =>
          exfalso
          rw [hcase] at hallf hfnd
          have hy : y = m := hallf y (List.mem_cons_self _ _)
          have hz' : z = m := hallf z (List.mem_cons_of_mem _ (List.mem_cons_self _ _))
          have : y ∉ z :: zs := (List.nodup_cons.mp hfnd).1
          exact this (by rw [hy, hz']; exact List.mem_cons_self _ _)
    have hcount := length_filter_split
      (fun e => decide (e.2 < m.2 ∨ (e.2 = m.2 ∧ strLt e.1 m.1 = true))) s.queue
    rw [hfilt] at hcount
    simp only [List.length_cons, List.length_nil] at hcount
    have hkey : zcountBelow s.queue m.1 m.2 + 1 = s.queue.length := by
      have hdef : zcountBelow s.queue m.1 m.2
          = (s.queue.filter
              (fun e => decide (e.2 < m.2 ∨ (e.2 = m.2 ∧ strLt e.1 m.1 = true)))).length := rfl
      omega
    have hform : getQueuePosition true s m.1
        = some (zcountBelow s.queue m.1 m.2 + 1) := by
      simp [getQueuePosition, zrank, hget]
    exact hform.trans (congrArg some hkey)
  · simp [getQueuePosition, zrank, hab]

/-- C4 (witness): in the two-job queue of the counterexample, the popped
maximum has position equal to the queue size 2 and a missing id has
position none. -/
theorem getQueuePosition_spec_witness :
    getQueuePosition true
        ⟨[], [("A", jobScore 10 100), ("B", jobScore 5 200)], [], []⟩
        ("A", jobScore 10 100).1
      = some ([("A", jobScore 10 100), ("B", jobScore 5 200)] : ZSet).length
    ∧ getQueuePosition true
        ⟨[], [("A", jobScore 10 100), ("B", jobScore 5 200)], [], []⟩ "Z" = none :=
  getQueuePosition_spec
    ⟨[], [("A", jobScore 10 100), ("B", jobScore 5 200)], [], []⟩
    ("A", jobScore 10 100) [("B", jobScore 5 200)] "Z"
    (by decide) (by decide) (by decide)

/-- C8: when ZPOPMAX pops an index entry whose job payload key is absent (an
orphan), dequeueJob returns none, the popped entry is gone from the index —
getQueuePosition subsequently returns none for that id — and nothing is
added back to the queue; job payloads and status records are untouched. -/
theorem dequeue_orphan_spec (s : QState) (id : String) (sc : Nat) (rest : ZSet)
    (hz : zpopmax s.queue = some ((id, sc), rest))
    (horphan : aget s.jobs (jobKey id) = none) :
    ∃ s' : QState,
      dequeueJob true false s = .ok (none, s')
      ∧ s'.queue = zremoveKey s.queue id
      ∧ getQueuePosition true s' id = none
      ∧ s'.jobs = s.jobs
      ∧ s'.statuses = s.statuses := by
  have hrest : rest = zremoveKey s.queue id := by
    unfold zpopmax at hz
    cases h : zmax s.queue with
    | none =>
      rw [h] at hz
      exact Option.noConfusion hz
    | some m' =>
      rw [h] at hz
      simp at hz
      rw [← hz.2, hz.1]
  have hpos : getQueuePosition true { s with queue := rest } id = none := by
    have : aget rest id = none := by
      rw [hrest]
      exact aget_zremoveKey s.queue id
    simp [getQueuePosition, zrank, this]
  by_cases hb : badId id = true
  · refine ⟨{ s with queue := rest }, ?_, ?_, hpos, rfl, rfl⟩
    · simp [dequeueJob, hz, hb]
    · rw [hrest]
  · refine ⟨{ s with queue := rest, legacy := s.legacy.erase id }, ?_, ?_, ?_, rfl, rfl⟩
    · simp [dequeueJob, hz, hb, horphan]
    · rw [hrest]
    · have : aget rest id = none := by
        rw [hrest]
        exact aget_zremoveKey s.queue id
      simp [getQueuePosition, zrank, this]

/-- C8 (witness): a queue with one entry whose payload is missing: dequeue
returns none, the index entry is removed and its position is none. -/
theorem dequeue_orphan_spec_witness :
    ∃ s' : QState,
      dequeueJob true false ⟨[], [("j1", jobScore 10 42)], ["j1"], []⟩
        = .ok (none, s')
      ∧ s'.queue = zremoveKey [("j1", jobScore 10 42)] "j1"
      ∧ getQueuePosition true s' "j1" = none
      ∧ s'.jobs = ([] : List (String × String))
      ∧ s'.statuses = ([] : List (String × (Obj × Nat))) :=
  dequeue_orphan_spec ⟨[], [("j1", jobScore 10 42)], ["j1"], []⟩ "j1"
    (jobScore 10 42) [] (by decide) (by rfl)

end Cognify
